import Mathlib

/-!
Shallow embedding of the V/CDR3/J boundary-trimming engine of
`vdj_region_gen.py` (functions `all_common_substrings`, `filter_substrings`,
`v_trimming`, `j_trimming`, `full_region_gen`).

Sequences are `List Char`.  The source represents failure of a resolver by
the sentinel string "NA"; the embedding keeps that representation (`NA`).
Python `str.split` / `str.join` and `difflib.SequenceMatcher
.find_longest_match` are modelled by executable functions below
(`pySplit`, `joinSep`, `findLongestMatch`).  The external Biopython pairwise
aligner is abstracted as a parameter (`Aligner`) supplying, for a given
tail window and CDR3, the list of alignments the library would return; each
alignment is reduced to the two observations the source reads off it:
`alignment.aligned[0][0][0]` (start of the first aligned block in the
window) and `alignment.score`.
-/

namespace VDJ

/-- The failure sentinel string "NA" used throughout the source. -/
def NA : List Char := ['N', 'A']

/-- Python `s[-n:]`: the last `n` characters of `s` (all of `s` when shorter). -/
def lastN (n : Nat) (l : List Char) : List Char := l.drop (l.length - n)

/-- Length of the longest common extension: how many initial characters two
lists share.  This is the count reached by the `while` loop of
`all_common_substrings` at a fixed pair of start positions. -/
def lce : List Char → List Char → Nat
  | x :: xs, y :: ys => if x = y then lce xs ys + 1 else 0
  | _, _ => 0

/-- The substrings `str1[i:i+k]` added by the inner `while` loop of
`all_common_substrings` for fixed start positions `i`, `j`. -/
def acsAt (s1 s2 : List Char) (i j : Nat) : List (List Char) :=
  (List.range (lce (s1.drop i) (s2.drop j))).map (fun k => (s1.drop i).take (k + 1))

/-- `all_common_substrings(str1, str2)` (source lines 64-74): every substring
`str1[i:i+k]` witnessed as common by the nested loops, collected into a set
(modelled by `dedup`) and returned as a list. -/
def all_common_substrings (s1 s2 : List Char) : List (List Char) :=
  ((List.range s1.length).flatMap (fun i =>
    (List.range s2.length).flatMap (fun j => acsAt s1 s2 i j))).dedup

/-- `filter_substrings` (source lines 77-78): keep substrings that start with
'C' and have length at least 2. -/
def filter_substrings (l : List (List Char)) : List (List Char) :=
  l.filter (fun s => decide (s.head? = some 'C' ∧ 2 ≤ s.length))

/-- Python `max(x :: xs, key=len)`: the first element of maximal length. -/
def maxByLen (x : List Char) (xs : List (List Char)) : List Char :=
  xs.foldl (fun best s => if best.length < s.length then s else best) x

/-- Index of the first occurrence of `m` in `s`, `none` when `m` does not
occur (Python `str.find` as used implicitly by `str.split`). -/
def findOcc (m : List Char) : List Char → Option Nat
  | [] => if m = [] then some 0 else none
  | c :: rest =>
    if m <+: c :: rest then some 0 else (findOcc m rest).map (· + 1)

/-- Fuelled worker for `pySplit`; fuel `s.length` always suffices for a
nonempty separator. -/
def pySplitAux (m : List Char) : Nat → List Char → List (List Char)
  | 0, s => [s]
  | fuel + 1, s =>
    match findOcc m s with
    | none => [s]
    | some i => s.take i :: pySplitAux m fuel (s.drop (i + m.length))

/-- Python `s.split(m)` for a nonempty separator `m`: cut at each
non-overlapping occurrence, scanning left to right. -/
def pySplit (m s : List Char) : List (List Char) := pySplitAux m s.length s

/-- Python `m.join(parts)`. -/
def joinSep (m : List Char) : List (List Char) → List Char
  | [] => []
  | [x] => x
  | x :: y :: rest => x ++ m ++ joinSep m (y :: rest)

/-- `m.join(s.split(m)[:-1])` — the idiom the source uses to trim `s` at the
matched substring `m` (source lines 96-97 and 124-125). -/
def splitTrim (m s : List Char) : List Char :=
  joinSep m ((pySplit m s).dropLast)

/-- What the source reads off one Biopython alignment object: the start of
the first aligned block in the window (`alignment.aligned[0][0][0]`) and the
alignment score. -/
structure Alignment where
  start : Nat
  score : ℚ
deriving DecidableEq

/-- The external pairwise aligner, abstracted: given the tail window and the
CDR3 it returns the alignments Biopython would enumerate. -/
abbrev Aligner := List Char → List Char → List Alignment

/-- The list comprehension of source lines 115-119 filtering alignments to
those whose window start character is 'C' and whose score meets the
threshold.  `none` models the IndexError raised when
`v_segment[alignment.aligned[0][0][0]]` is out of range (the exception
escapes `v_trimming` and is caught by the orchestrator). -/
def pyFilterAligns (w : List Char) (thr : ℚ) : List Alignment → Option (List Alignment)
  | [] => some []
  | a :: rest =>
    match w.get? a.start with
    | none => none
    | some ch =>
      match pyFilterAligns w thr rest with
      | none => none
      | some fs => some (if ch = 'C' ∧ thr ≤ a.score then a :: fs else fs)

/-- Python `max(x :: xs, key=lambda a: a.score)`: first alignment of maximal
score. -/
def maxByScore (x : Alignment) (xs : List Alignment) : Alignment :=
  xs.foldl (fun best a => if best.score < a.score then a else best) x

/-- The exact-match tier's candidate set (source line 93):
`filter_substrings(all_common_substrings(v_seq[-20:], cdr3_seq))`. -/
def exactCandidates (v_seq cdr3_seq : List Char) : List (List Char) :=
  filter_substrings (all_common_substrings (lastN 20 v_seq) cdr3_seq)

/-- The matched substring the exact tier selects, when its candidate set is
nonempty (`max(possible_substrings, key=len)`, source line 95). -/
def exactMatchSeq (v_seq cdr3_seq : List Char) : Option (List Char) :=
  match exactCandidates v_seq cdr3_seq with
  | [] => none
  | m0 :: ms => some (maxByLen m0 ms)

/-- `v_trimming(v_seq, cdr3_seq)` (source lines 82-128), parameterised by the
abstract aligner.  Tier 1: longest common substring of the 20-character tail
window and the CDR3 that starts with 'C' and has length at least 2; trim
`v_seq` at it.  Tier 2 (only when tier 1 has no candidate): filter the
aligner's alignments to those starting at a 'C' with score at least 0 and
trim at the window suffix from the best one's start; `NA` when the filter
raises (out-of-range start) or no alignment survives (`max` on an empty
list). -/
def v_trimming (al : Aligner) (v_seq cdr3_seq : List Char) : List Char :=
  match exactCandidates v_seq cdr3_seq with
  | m0 :: ms => splitTrim (maxByLen m0 ms) v_seq
  | [] =>
    match pyFilterAligns (lastN 20 v_seq) 0 (al (lastN 20 v_seq) cdr3_seq) with
    | none => NA
    | some [] => NA
    | some (f :: fs) =>
      splitTrim ((lastN 20 v_seq).drop (maxByScore f fs).start) v_seq

/-- The residue table of `j_trimming` (source line 136) with the `except`
default 0; digits are kept as characters since the source builds a string. -/
def jValue (c : Char) : Char :=
  if c = 'F' ∨ c = 'W' then '2' else if c = 'G' then '1' else '0'

/-- The derived digit string `value_string` of `j_trimming`. -/
def jValueString (j_seq : List Char) : List Char := j_seq.map jValue

/-- The primary motif pattern "2101". -/
def pat2101 : List Char := ['2', '1', '0', '1']

/-- The fallback motif pattern "2111". -/
def pat2111 : List Char := ['2', '1', '1', '1']

/-- One update of `difflib`'s best-block search: at start positions `(i, j)`
the candidate block has size `lce (a.drop i) (b.drop j)`; it replaces the
current best only when strictly larger. -/
def flmStep (a b : List Char) (best : Nat × Nat × Nat) (i j : Nat) : Nat × Nat × Nat :=
  if best.2.2 < lce (a.drop i) (b.drop j) then (i, j, lce (a.drop i) (b.drop j)) else best

/-- `SequenceMatcher(None, a, b).find_longest_match()` (no junk, `len b` far
below the autojunk threshold): the triple `(match.a, match.b, match.size)` of
the longest matching block, ties resolved to the earliest start in `a`, then
the earliest start in `b`; `(0, 0, 0)` when nothing matches. -/
def findLongestMatch (a b : List Char) : Nat × Nat × Nat :=
  (List.range a.length).foldl (fun best i =>
    (List.range b.length).foldl (fun best j => flmStep a b best i j) best) (0, 0, 0)

/-- `j_trimming(j_seq)` (source lines 131-157): map residues to the digit
string, look for a length-4 match of "2101", then of "2111"; on a hit keep
the suffix of `j_seq` starting one position after the match start, otherwise
return the sentinel `NA`. -/
def j_trimming (j_seq : List Char) : List Char :=
  if (findLongestMatch (jValueString j_seq) pat2101).2.2 = 4 then
    j_seq.drop ((findLongestMatch (jValueString j_seq) pat2101).1 + 1)
  else if (findLongestMatch (jValueString j_seq) pat2111).2.2 = 4 then
    j_seq.drop ((findLongestMatch (jValueString j_seq) pat2111).1 + 1)
  else NA

/-- One input row of `full_region_gen`: the three sequences the engine reads
(`V_AA_Seq`, `CDR3`, `J_AA_Seq`); pass-through metadata is omitted. -/
structure JRecord where
  v_seq : List Char
  cdr3 : List Char
  j_seq : List Char
deriving DecidableEq

/-- One successful output row: the record together with the trimmed fragments
and the assembled `V_CDR3_J_Sequence` column. -/
structure AssembledRecord where
  base : JRecord
  v_trimmed : List Char
  j_trimmed : List Char
  full_sequence : List Char
deriving DecidableEq

/-- `full_region_gen(vj)` (source lines 160-187): per row, compute both trims
(exceptions already folded into `NA` by the try/except at lines 171-178),
then emit rows with both trims distinct from `NA` to the success output with
`V_CDR3_J_Sequence = V_AA_Trimmed + CDR3 + J_AA_Trimmed`, and rows with
either trim equal to `NA` to the quarantine output `dropout_threading`
(which keeps the record together with its recorded trim columns). -/
def full_region_gen (al : Aligner) (rows : List JRecord) :
    List AssembledRecord × List (JRecord × List Char × List Char) :=
  let trimmed := rows.map (fun r => (r, v_trimming al r.v_seq r.cdr3, j_trimming r.j_seq))
  (trimmed.filterMap (fun t =>
      if t.2.1 ≠ NA ∧ t.2.2 ≠ NA then
        some ⟨t.1, t.2.1, t.2.2, t.2.1 ++ t.1.cdr3 ++ t.2.2⟩
      else none),
   trimmed.filterMap (fun t =>
      if t.2.1 = NA ∨ t.2.2 = NA then some t else none))

/-- An aligner returning no alignments (used to exercise the exact tier,
which never consults the aligner). -/
def alNone : Aligner := fun _ _ => []

/-- An aligner returning a single alignment anchored at window position 0
with score 5. -/
def alEarly : Aligner := fun _ _ => [⟨0, 5⟩]

/-- An aligner returning a single alignment anchored at window position 1
with score 5. -/
def alAnchored : Aligner := fun _ _ => [⟨1, 5⟩]

/-- A concrete well-formed record: V = "MCA", CDR3 = "CAS", J = "FGAG". -/
def rowMCA : JRecord := ⟨['M', 'C', 'A'], ['C', 'A', 'S'], ['F', 'G', 'A', 'G']⟩

/-- The assembled output the engine produces for `rowMCA`. -/
def arMCA : AssembledRecord :=
  ⟨rowMCA, ['M'], ['G', 'A', 'G'], ['M', 'C', 'A', 'S', 'G', 'A', 'G']⟩

/-! ### Longest common extension -/

theorem lce_le_length_left : ∀ x y : List Char, lce x y ≤ x.length
  | [], y => by cases y <;> simp [lce]
  | _ :: _, [] => by simp [lce]
  | a :: x, b :: y => by
    by_cases h : a = b
    · simpa [lce, h] using lce_le_length_left x y
    · simp [lce, h]

theorem lce_take : ∀ (n : Nat) (x y : List Char), n ≤ lce x y → x.take n = y.take n
  | 0, _, _, _ => by simp
  | n + 1, [], y, h => by cases y <;> simp [lce] at h
  | n + 1, _ :: _, [], h => by simp [lce] at h
  | n + 1, a :: x, b :: y, h => by
    by_cases hab : a = b
    · simp only [lce, if_pos hab] at h
      have := lce_take n x y (by omega)
      simp [hab, this]
    · simp [lce, hab] at h

theorem lce_append : ∀ t x y : List Char, t.length ≤ lce (t ++ x) (t ++ y)
  | [], _, _ => by simp
  | c :: t, x, y => by
    have h := lce_append t x y
    have hstep : lce (c :: t ++ x) (c :: t ++ y) = lce (t ++ x) (t ++ y) + 1 := by
      simp [lce]
    rw [List.length_cons, hstep]
    omega

theorem lce_ne_nil {x y : List Char} (h : 0 < lce x y) : x ≠ [] ∧ y ≠ [] := by
  cases x <;> cases y <;> simp [lce] at h ⊢

/-! ### The exact-match tier's candidate enumeration -/

theorem mem_all_common_substrings {s1 s2 t : List Char} :
    t ∈ all_common_substrings s1 s2 ↔ t ≠ [] ∧ t <:+: s1 ∧ t <:+: s2 := by
  unfold all_common_substrings acsAt
  simp only [List.mem_dedup, List.mem_flatMap, List.mem_map, List.mem_range]
  constructor
  · rintro ⟨i, hi, j, hj, k, hk, rfl⟩
    have hL : 0 < lce (s1.drop i) (s2.drop j) := Nat.lt_of_le_of_lt (Nat.zero_le k) hk
    obtain ⟨h1, h2⟩ := lce_ne_nil hL
    refine ⟨?_, ?_, ?_⟩
    · cases hd : s1.drop i with
      | nil => exact absurd hd h1
      | cons c rest => simp [hd]
    · refine ⟨s1.take i, (s1.drop i).drop (k + 1), ?_⟩
      rw [List.append_assoc, List.take_append_drop, List.take_append_drop]
    · have hteq : (s1.drop i).take (k + 1) = (s2.drop j).take (k + 1) :=
        lce_take (k + 1) _ _ (by omega)
      rw [hteq]
      refine ⟨s2.take j, (s2.drop j).drop (k + 1), ?_⟩
      rw [List.append_assoc, List.take_append_drop, List.take_append_drop]
  · rintro ⟨hne, ⟨p, q, hpq⟩, ⟨u, w, huw⟩⟩
    have htlen : 0 < t.length := List.length_pos.mpr hne
    have hd1 : s1.drop p.length = t ++ q := by
      rw [← hpq, List.append_assoc, List.drop_left]
    have hd2 : s2.drop u.length = t ++ w := by
      rw [← huw, List.append_assoc, List.drop_left]
    have hlce : t.length ≤ lce (s1.drop p.length) (s2.drop u.length) := by
      rw [hd1, hd2]; exact lce_append t q w
    refine ⟨p.length, ?_, u.length, ?_, t.length - 1, ?_, ?_⟩
    · rw [← hpq]; simp [List.length_append]; omega
    · rw [← huw]; simp [List.length_append]; omega
    · omega
    · have hl : t.length - 1 + 1 = t.length := by omega
      rw [hd1, hl]
      exact List.take_left t q

theorem mem_exactCandidates {v c t : List Char} :
    t ∈ exactCandidates v c ↔
      t <:+: lastN 20 v ∧ t <:+: c ∧ t.head? = some 'C' ∧ 2 ≤ t.length := by
  unfold exactCandidates filter_substrings
  simp only [List.mem_filter, mem_all_common_substrings, decide_eq_true_eq]
  constructor
  · rintro ⟨⟨_, h1, h2⟩, hh, hl⟩
    exact ⟨h1, h2, hh, hl⟩
  · rintro ⟨h1, h2, hh, hl⟩
    refine ⟨⟨?_, h1, h2⟩, hh, hl⟩
    intro h
    subst h
    simp at hh

/-! ### Python `max(..., key=...)` -/

theorem maxByLen_mem : ∀ (xs : List (List Char)) (x : List Char), maxByLen x xs ∈ x :: xs
  | [], x => by simp [maxByLen]
  | s :: rest, x => by
    have h := maxByLen_mem rest (if x.length < s.length then s else x)
    simp only [maxByLen, List.foldl_cons] at h ⊢
    rcases List.mem_cons.mp h with h | h
    · rw [h]
      split <;> simp
    · exact List.mem_cons_of_mem _ (List.mem_cons_of_mem _ h)

theorem maxByLen_le : ∀ (xs : List (List Char)) (x t : List Char),
    t ∈ x :: xs → t.length ≤ (maxByLen x xs).length
  | [], x, t, ht => by
    simp at ht
    simp [maxByLen, ht]
  | s :: rest, x, t, ht => by
    simp only [maxByLen, List.foldl_cons] at ht ⊢
    have hself : ∀ y : List Char, y.length ≤ (maxByLen y rest).length := fun y =>
      maxByLen_le rest y y (by simp)
    have hx : x.length ≤ (if x.length < s.length then s else x).length := by
      split <;> omega
    have hs : s.length ≤ (if x.length < s.length then s else x).length := by
      split <;> omega
    rcases List.mem_cons.mp ht with rfl | ht'
    · exact le_trans hx (hself _)
    · rcases List.mem_cons.mp ht' with rfl | ht''
      · exact le_trans hs (hself _)
      · exact maxByLen_le rest _ t (List.mem_cons_of_mem _ ht'')

theorem maxByScore_mem : ∀ (xs : List Alignment) (x : Alignment), maxByScore x xs ∈ x :: xs
  | [], x => by simp [maxByScore]
  | s :: rest, x => by
    have h := maxByScore_mem rest (if x.score < s.score then s else x)
    simp only [maxByScore, List.foldl_cons] at h ⊢
    rcases List.mem_cons.mp h with h | h
    · rw [h]
      split <;> simp
    · exact List.mem_cons_of_mem _ (List.mem_cons_of_mem _ h)

theorem headDropGet : ∀ (l : List Char) (n : Nat), (l.drop n).head? = l.get? n := by
  intro l
  induction l with
  | nil => intro n; cases n <;> simp
  | cons c t ih =>
    intro n
    cases n with
    | zero => simp
    | succ n2 =>
      simp only [List.drop_succ_cons, List.get?_cons_succ]
      exact ih n2

/-! ### First-occurrence search and Python split/join -/

theorem findOcc_le {m : List Char} :
    ∀ {s : List Char} {i : Nat}, findOcc m s = some i → i ≤ s.length := by
  intro s
  induction s with
  | nil =>
    intro i h
    unfold findOcc at h
    split at h
    · simp at h
      omega
    · simp at h
  | cons c rest ih =>
    intro i h
    unfold findOcc at h
    split at h
    · simp at h
      omega
    · cases ho : findOcc m rest with
      | none => rw [ho] at h; simp at h
      | some i2 =>
        rw [ho] at h
        simp at h
        have := ih ho
        simp only [List.length_cons]
        omega

theorem findOcc_drop {m : List Char} :
    ∀ {s : List Char} {i : Nat}, findOcc m s = some i → m <+: s.drop i := by
  intro s
  induction s with
  | nil =>
    intro i h
    unfold findOcc at h
    split at h
    · simp at h
      subst h
      rename_i hm
      subst hm
      exact ⟨[], rfl⟩
    · simp at h
  | cons c rest ih =>
    intro i h
    unfold findOcc at h
    split at h
    · simp at h
      subst h
      rename_i hp
      exact hp
    · cases ho : findOcc m rest with
      | none => rw [ho] at h; simp at h
      | some i2 =>
        rw [ho] at h
        simp at h
        subst h
        rw [List.drop_succ_cons]
        exact ih ho

theorem findOcc_isSome_of_infix {m : List Char} (hm : m ≠ []) :
    ∀ {s : List Char}, (∃ p q, s = p ++ m ++ q) → ∃ i, findOcc m s = some i := by
  intro s
  induction s with
  | nil =>
    rintro ⟨p, q, h⟩
    exfalso
    have h2 := h.symm
    rw [List.append_eq_nil] at h2
    rw [List.append_eq_nil] at h2
    exact hm h2.1.2
  | cons c rest ih =>
    rintro ⟨p, q, h⟩
    by_cases hp : m <+: c :: rest
    · exact ⟨0, by unfold findOcc; rw [if_pos hp]⟩
    · cases p with
      | nil =>
        exfalso
        apply hp
        simp only [List.nil_append] at h
        exact ⟨q, h.symm⟩
      | cons d p2 =>
        simp only [List.cons_append] at h
        have hr : rest = p2 ++ m ++ q := by
          injection h with _ h2
        obtain ⟨i, hi⟩ := ih ⟨p2, q, hr⟩
        refine ⟨i + 1, ?_⟩
        unfold findOcc
        rw [if_neg hp, hi]
        rfl

theorem pySplitAux_ne_nil {m : List Char} :
    ∀ (fuel : Nat) (s : List Char), pySplitAux m fuel s ≠ [] := by
  intro fuel s
  cases fuel with
  | zero => simp [pySplitAux]
  | succ f =>
    unfold pySplitAux
    split <;> simp

theorem joinSep_cons (m x : List Char) {l : List (List Char)} (hl : l ≠ []) :
    joinSep m (x :: l) = x ++ m ++ joinSep m l := by
  cases l with
  | nil => exact absurd rfl hl
  | cons y rest => rfl

theorem joinSep_concat (m a : List Char) :
    ∀ (l : List (List Char)), l ≠ [] → joinSep m (l ++ [a]) = joinSep m l ++ m ++ a
  | [], h => absurd rfl h
  | [x], _ => by simp [joinSep]
  | x :: y :: rest, _ => by
    have ih := joinSep_concat m a (y :: rest) (by simp)
    calc joinSep m ((x :: y :: rest) ++ [a])
        = joinSep m (x :: ((y :: rest) ++ [a])) := by simp
      _ = x ++ m ++ joinSep m ((y :: rest) ++ [a]) := joinSep_cons m x (by simp)
      _ = x ++ m ++ (joinSep m (y :: rest) ++ m ++ a) := by rw [ih]
      _ = (x ++ m ++ joinSep m (y :: rest)) ++ m ++ a := by simp [List.append_assoc]
      _ = joinSep m (x :: y :: rest) ++ m ++ a := rfl

theorem joinSep_pySplitAux {m : List Char} (hm : m ≠ []) :
    ∀ (fuel : Nat) (s : List Char), s.length ≤ fuel →
      joinSep m (pySplitAux m fuel s) = s := by
  intro fuel
  induction fuel with
  | zero =>
    intro s hs
    have hnil : s = [] := List.length_eq_zero.mp (Nat.le_zero.mp hs)
    subst hnil
    rfl
  | succ f ih =>
    intro s hs
    unfold pySplitAux
    cases ho : findOcc m s with
    | none => rfl
    | some i =>
      have hd := findOcc_drop ho
      have hmlen : 1 ≤ m.length := by
        cases m
        · exact absurd rfl hm
        · simp
      have hple : m.length ≤ (s.drop i).length := hd.length_le
      rw [List.length_drop] at hple
      have hslen : i + m.length ≤ s.length := by
        have := findOcc_le ho
        omega
      have hrec : (s.drop (i + m.length)).length ≤ f := by
        rw [List.length_drop]
        omega
      rw [joinSep_cons _ _ (pySplitAux_ne_nil f _), ih _ hrec]
      obtain ⟨tl, htl⟩ := hd
      have hdd : s.drop (i + m.length) = tl := by
        rw [← List.drop_drop m.length i s, ← htl, List.drop_left]
      rw [hdd, List.append_assoc, htl, List.take_append_drop]

theorem pySplitAux_last {m : List Char} (hm : m ≠ []) :
    ∀ (fuel : Nat) (s : List Char), s.length ≤ fuel →
      ∃ init last, pySplitAux m fuel s = init ++ [last] ∧ findOcc m last = none ∧
        (findOcc m s ≠ none → init ≠ []) := by
  intro fuel
  induction fuel with
  | zero =>
    intro s hs
    have hnil : s = [] := List.length_eq_zero.mp (Nat.le_zero.mp hs)
    subst hnil
    refine ⟨[], [], rfl, by simp [findOcc, hm], ?_⟩
    intro h
    exact absurd (by simp [findOcc, hm]) h
  | succ f ih =>
    intro s hs
    unfold pySplitAux
    cases ho : findOcc m s with
    | none => exact ⟨[], s, rfl, ho, fun h => absurd rfl h⟩
    | some i =>
      have hd := findOcc_drop ho
      have hmlen : 1 ≤ m.length := by
        cases m
        · exact absurd rfl hm
        · simp
      have hple : m.length ≤ (s.drop i).length := hd.length_le
      rw [List.length_drop] at hple
      have hslen : i + m.length ≤ s.length := by
        have := findOcc_le ho
        omega
      have hrec : (s.drop (i + m.length)).length ≤ f := by
        rw [List.length_drop]
        omega
      obtain ⟨init, last, hsplit, hlast, _⟩ := ih (s.drop (i + m.length)) hrec
      refine ⟨s.take i :: init, last, ?_, hlast, ?_⟩
      · show List.take i s :: pySplitAux m f (s.drop (i + m.length)) =
          (List.take i s :: init) ++ [last]
        rw [hsplit]
        rfl
      · intro _
        simp

theorem splitTrim_decomp {m s : List Char} (hm : m ≠ []) {i : Nat}
    (ho : findOcc m s = some i) :
    ∃ r, s = splitTrim m s ++ m ++ r ∧ findOcc m r = none := by
  obtain ⟨init, last, hsplit, hlast, hinit⟩ := pySplitAux_last hm s.length s le_rfl
  have hinit2 : init ≠ [] := hinit (by rw [ho]; simp)
  refine ⟨last, ?_, hlast⟩
  have hjoin : joinSep m (pySplitAux m s.length s) = s :=
    joinSep_pySplitAux hm s.length s le_rfl
  rw [hsplit] at hjoin
  rw [joinSep_concat m last init hinit2] at hjoin
  unfold splitTrim pySplit
  rw [hsplit, List.dropLast_concat, hjoin]

theorem splitTrim_of_none {m s : List Char} (ho : findOcc m s = none) :
    splitTrim m s = [] := by
  unfold splitTrim pySplit
  cases s with
  | nil => rfl
  | cons c rest =>
    show joinSep m ((pySplitAux m (rest.length + 1) (c :: rest)).dropLast) = []
    unfold pySplitAux
    rw [ho]
    rfl

theorem splitTrim_pre {m : List Char} (hm : m ≠ []) (s : List Char) :
    splitTrim m s <+: s := by
  cases ho : findOcc m s with
  | none =>
    rw [splitTrim_of_none ho]
    exact ⟨s, rfl⟩
  | some i =>
    obtain ⟨r, hr, _⟩ := splitTrim_decomp hm ho
    refine ⟨m ++ r, ?_⟩
    rw [← List.append_assoc]
    exact hr.symm

/-! ### The alignment tier's filter -/

theorem pyFilterAligns_sound {w : List Char} {thr : ℚ} :
    ∀ {l fs : List Alignment}, pyFilterAligns w thr l = some fs →
      ∀ a ∈ fs, a ∈ l ∧ w.get? a.start = some 'C' ∧ thr ≤ a.score := by
  intro l
  induction l with
  | nil =>
    intro fs h a ha
    simp only [pyFilterAligns, Option.some.injEq] at h
    subst h
    simp at ha
  | cons b rest ih =>
    intro fs h a ha
    unfold pyFilterAligns at h
    cases hg : w.get? b.start with
    | none => rw [hg] at h; simp at h
    | some ch =>
      rw [hg] at h
      cases hr : pyFilterAligns w thr rest with
      | none => rw [hr] at h; simp at h
      | some fs2 =>
        rw [hr] at h
        simp only [Option.some.injEq] at h
        by_cases hcond : ch = 'C' ∧ thr ≤ b.score
        · rw [if_pos hcond] at h
          subst h
          rcases List.mem_cons.mp ha with rfl | ha2
          · refine ⟨List.mem_cons_self _ _, ?_, hcond.2⟩
            rw [hg, hcond.1]
          · obtain ⟨h1, h2, h3⟩ := ih hr a ha2
            exact ⟨List.mem_cons_of_mem _ h1, h2, h3⟩
        · rw [if_neg hcond] at h
          subst h
          obtain ⟨h1, h2, h3⟩ := ih hr a ha
          exact ⟨List.mem_cons_of_mem _ h1, h2, h3⟩

/-! ### Shape of every successful V trim -/

theorem v_trimming_shape (al : Aligner) (v c : List Char) :
    v_trimming al v c = NA ∨
      ∃ m, m.head? = some 'C' ∧ (∃ p q, v = p ++ m ++ q) ∧
        v_trimming al v c = splitTrim m v := by
  cases hc : exactCandidates v c with
  | cons m0 ms =>
    right
    have hmem : maxByLen m0 ms ∈ exactCandidates v c := by
      rw [hc]
      exact maxByLen_mem ms m0
    obtain ⟨⟨p, q, hpq⟩, _, hh, _⟩ := mem_exactCandidates.mp hmem
    obtain ⟨pre, hpre⟩ : lastN 20 v <:+ v := List.drop_suffix _ _
    refine ⟨maxByLen m0 ms, hh, ⟨pre ++ p, q, ?_⟩, ?_⟩
    · rw [← hpre, ← hpq]
      simp [List.append_assoc]
    · unfold v_trimming
      rw [hc]
  | nil =>
    cases hf : pyFilterAligns (lastN 20 v) 0 (al (lastN 20 v) c) with
    | none =>
      left
      unfold v_trimming
      rw [hc, hf]
    | some fs =>
      cases fs with
      | nil =>
        left
        unfold v_trimming
        rw [hc, hf]
      | cons f fs2 =>
        right
        have hbmem : maxByScore f fs2 ∈ f :: fs2 := maxByScore_mem fs2 f
        obtain ⟨_, hch, _⟩ := pyFilterAligns_sound hf _ hbmem
        obtain ⟨pre, hpre⟩ : lastN 20 v <:+ v := List.drop_suffix _ _
        refine ⟨(lastN 20 v).drop (maxByScore f fs2).start, ?_, ?_, ?_⟩
        · rw [headDropGet]
          exact hch
        · refine ⟨pre ++ (lastN 20 v).take (maxByScore f fs2).start, [], ?_⟩
          calc v = pre ++ lastN 20 v := hpre.symm
            _ = pre ++ ((lastN 20 v).take (maxByScore f fs2).start ++
                  (lastN 20 v).drop (maxByScore f fs2).start) := by
                rw [List.take_append_drop]
            _ = pre ++ (lastN 20 v).take (maxByScore f fs2).start ++
                  (lastN 20 v).drop (maxByScore f fs2).start ++ [] := by
                simp [List.append_assoc]
        · unfold v_trimming
          rw [hc, hf]

/-- Every candidate of the exact tier makes the window contain 'C'; hence a
window with no 'C' forces both tiers to fail. -/
theorem v_trimming_no_anchor {v : List Char} (h : 'C' ∉ lastN 20 v)
    (al : Aligner) (c : List Char) : v_trimming al v c = NA := by
  have hc : exactCandidates v c = [] := by
    cases he : exactCandidates v c with
    | nil => rfl
    | cons m0 ms =>
      exfalso
      have hm : m0 ∈ exactCandidates v c := by rw [he]; simp
      obtain ⟨⟨p, q, hpq⟩, _, hh, _⟩ := mem_exactCandidates.mp hm
      apply h
      rw [← hpq]
      cases m0 with
      | nil => simp at hh
      | cons c0 t =>
        simp only [List.head?_cons, Option.some.injEq] at hh
        subst hh
        simp
  cases hf : pyFilterAligns (lastN 20 v) 0 (al (lastN 20 v) c) with
  | none =>
    unfold v_trimming
    rw [hc, hf]
  | some fs =>
    cases fs with
    | nil =>
      unfold v_trimming
      rw [hc, hf]
    | cons f fs2 =>
      exfalso
      obtain ⟨_, hch, _⟩ := pyFilterAligns_sound hf f (by simp)
      exact h (List.get?_mem hch)

/-! ### `find_longest_match` bounds -/

theorem foldl_inv {α β : Type} (P : β → Prop) (f : β → α → β) :
    ∀ (l : List α) (init : β), P init →
      (∀ acc x, x ∈ l → P acc → P (f acc x)) → P (l.foldl f init) := by
  intro l
  induction l with
  | nil => intro init h _; exact h
  | cons x xs ih =>
    intro init h hf
    exact ih (f init x) (hf init x (List.mem_cons_self x xs) h)
      (fun acc y hy => hf acc y (List.mem_cons_of_mem _ hy))

/-- The block reported by `find_longest_match` lies inside `a`: its start
plus its size is at most `a.length`. -/
theorem findLongestMatch_bound (a b : List Char) :
    (findLongestMatch a b).1 + (findLongestMatch a b).2.2 ≤ a.length := by
  unfold findLongestMatch
  apply foldl_inv (fun best : Nat × Nat × Nat => best.1 + best.2.2 ≤ a.length)
  · simp
  · intro acc i hi hacc
    apply foldl_inv (fun best : Nat × Nat × Nat => best.1 + best.2.2 ≤ a.length)
    · exact hacc
    · intro acc2 j _ hacc2
      unfold flmStep
      split
      · have h1 : lce (a.drop i) (b.drop j) ≤ (a.drop i).length := lce_le_length_left _ _
        rw [List.length_drop] at h1
        have h2 : i < a.length := List.mem_range.mp hi
        simp only
        omega
      · exact hacc2

/-! ### Claims -/

/-- Claim C1: for every record on which both resolvers succeed (both trim
columns differ from the failure sentinel, which is exactly the success
criterion `full_region_gen` applies), the assembled `full_sequence` is the
literal concatenation of `v_trimmed`, `cdr3` and `j_trimmed`, and its length
is exactly the sum of the three lengths. -/
theorem c1_full_sequence_concat (al : Aligner) (rows : List JRecord)
    (ar : AssembledRecord) (h : ar ∈ (full_region_gen al rows).1) :
    ar.full_sequence = ar.v_trimmed ++ ar.base.cdr3 ++ ar.j_trimmed ∧
      ar.full_sequence.length =
        ar.v_trimmed.length + ar.base.cdr3.length + ar.j_trimmed.length := by
  unfold full_region_gen at h
  simp only [List.mem_filterMap, List.mem_map] at h
  obtain ⟨t, ⟨r, _, rfl⟩, ht⟩ := h
  split at ht
  · simp only [Option.some.injEq] at ht
    subst ht
    refine ⟨rfl, ?_⟩
    simp only [List.length_append]
  · simp at ht

theorem c1_witness :
    arMCA.full_sequence = arMCA.v_trimmed ++ arMCA.base.cdr3 ++ arMCA.j_trimmed ∧
      arMCA.full_sequence.length =
        arMCA.v_trimmed.length + arMCA.base.cdr3.length + arMCA.j_trimmed.length :=
  c1_full_sequence_concat alNone [rowMCA] arMCA (by decide)

/-- Claim C2, counterexample: on `v_segment` = "CAXXCA", `cdr3` = "CA" the
exact tier succeeds with matched substring "CA", whose first occurrence in
`v_segment` is at index 0, so the portion strictly before the first
occurrence is the empty string; the code instead returns "CAXX" (everything
before the last non-overlapping occurrence). -/
theorem c2_counterexample :
    exactMatchSeq ['C', 'A', 'X', 'X', 'C', 'A'] ['C', 'A'] = some ['C', 'A'] ∧
    findOcc ['C', 'A'] ['C', 'A', 'X', 'X', 'C', 'A'] = some 0 ∧
    v_trimming alNone ['C', 'A', 'X', 'X', 'C', 'A'] ['C', 'A'] =
      ['C', 'A', 'X', 'X'] ∧
    v_trimming alNone ['C', 'A', 'X', 'X', 'C', 'A'] ['C', 'A'] ≠
      List.take 0 ['C', 'A', 'X', 'X', 'C', 'A'] :=
  ⟨by decide, by decide, by decide, by decide⟩

/-- Claim C2 (amended): when the exact tier succeeds with matched substring
`m`, the returned `v_trimmed` is the portion of `v_segment` strictly before
the last occurrence of `m` found by Python's left-to-right non-overlapping
split scan: `v_segment = v_trimmed ++ m ++ r` with no occurrence of `m` left
in `r`. -/
theorem c2_last_occurrence (al : Aligner) (v c m : List Char)
    (h : exactMatchSeq v c = some m) :
    ∃ r, v = v_trimming al v c ++ m ++ r ∧ findOcc m r = none := by
  unfold exactMatchSeq at h
  cases hc : exactCandidates v c with
  | nil => rw [hc] at h; simp at h
  | cons m0 ms =>
    rw [hc] at h
    simp only [Option.some.injEq] at h
    subst h
    have hmem : maxByLen m0 ms ∈ exactCandidates v c := by
      rw [hc]
      exact maxByLen_mem ms m0
    obtain ⟨⟨p, q, hpq⟩, _, hh, _⟩ := mem_exactCandidates.mp hmem
    have hm : maxByLen m0 ms ≠ [] := by
      intro hnil
      rw [hnil] at hh
      simp at hh
    obtain ⟨pre, hpre⟩ : lastN 20 v <:+ v := List.drop_suffix _ _
    have hint : ∃ p2 q2, v = p2 ++ maxByLen m0 ms ++ q2 := by
      refine ⟨pre ++ p, q, ?_⟩
      rw [← hpre, ← hpq]
      simp [List.append_assoc]
    obtain ⟨i, hocc⟩ := findOcc_isSome_of_infix hm hint
    obtain ⟨r, hr, hnone⟩ := splitTrim_decomp hm hocc
    have heq : v_trimming al v c = splitTrim (maxByLen m0 ms) v := by
      unfold v_trimming
      rw [hc]
    exact ⟨r, by rw [heq]; exact hr, hnone⟩

theorem c2_witness :
    ∃ r, (['C', 'A', 'X', 'X', 'C', 'A'] : List Char) =
      v_trimming alNone ['C', 'A', 'X', 'X', 'C', 'A'] ['C', 'A'] ++
        ['C', 'A'] ++ r ∧ findOcc ['C', 'A'] r = none :=
  c2_last_occurrence alNone _ _ _ (by decide)

/-- Claim C3: the exact tier considers exactly the common substrings of the
last 20 characters of `v_segment` and `cdr3` that start with 'C' and have
length at least 2, and when this set is nonempty it deterministically selects
a member of maximal length as the match and trims `v_segment` at it,
regardless of the aligner. -/
theorem c3_exact_tier_candidates (v c : List Char) :
    (∀ t, t ∈ exactCandidates v c ↔
        t <:+: lastN 20 v ∧ t <:+: c ∧ t.head? = some 'C' ∧ 2 ≤ t.length) ∧
    (∀ m0 ms, exactCandidates v c = m0 :: ms →
        exactMatchSeq v c = some (maxByLen m0 ms) ∧
        maxByLen m0 ms ∈ exactCandidates v c ∧
        (∀ t ∈ exactCandidates v c, t.length ≤ (maxByLen m0 ms).length) ∧
        (∀ al, v_trimming al v c = splitTrim (maxByLen m0 ms) v)) := by
  constructor
  · intro t
    exact mem_exactCandidates
  · intro m0 ms hc
    refine ⟨?_, ?_, ?_, ?_⟩
    · unfold exactMatchSeq
      rw [hc]
    · rw [hc]
      exact maxByLen_mem ms m0
    · intro t ht
      rw [hc] at ht
      exact maxByLen_le ms m0 t ht
    · intro al
      unfold v_trimming
      rw [hc]

theorem c3_witness :
    exactMatchSeq ['M', 'C', 'A'] ['C', 'A', 'S'] = some (maxByLen ['C', 'A'] []) ∧
    maxByLen ['C', 'A'] [] ∈ exactCandidates ['M', 'C', 'A'] ['C', 'A', 'S'] :=
  ⟨((c3_exact_tier_candidates _ _).2 ['C', 'A'] [] (by decide)).1,
   ((c3_exact_tier_candidates _ _).2 ['C', 'A'] [] (by decide)).2.1⟩

/-- Claim C4: the J resolver maps each residue through the fixed table
(F, W to 2, G to 1, others to 0) giving a digit string of the same length as
`j_segment`, and whenever the longest match against "2101" (or, failing
that, "2111") has length exactly 4 starting at index `a` of the digit
string, it returns the suffix of `j_segment` from index `a + 1`. -/
theorem c4_j_motif_trimming (j : List Char) (a b : Nat) :
    (jValueString j).length = j.length ∧
    (findLongestMatch (jValueString j) pat2101 = (a, b, 4) →
      j_trimming j = j.drop (a + 1)) ∧
    ((findLongestMatch (jValueString j) pat2101).2.2 ≠ 4 →
      findLongestMatch (jValueString j) pat2111 = (a, b, 4) →
      j_trimming j = j.drop (a + 1)) := by
  refine ⟨List.length_map _ _, ?_, ?_⟩
  · intro h
    unfold j_trimming
    rw [h]
    simp
  · intro h1 h2
    unfold j_trimming
    rw [if_neg h1, h2]
    simp

set_option maxRecDepth 4000 in
theorem c4_witness :
    j_trimming ['G', 'T', 'F', 'G', 'G', 'G', 'T', 'K', 'L', 'T', 'V', 'L'] =
      List.drop (2 + 1) ['G', 'T', 'F', 'G', 'G', 'G', 'T', 'K', 'L', 'T', 'V', 'L'] :=
  (c4_j_motif_trimming _ 2 0).2.2 (by decide) (by decide)

/-- Claim C5: the J resolver returns the failure sentinel (the code's
representation of Failed(no_qualifying_motif)) exactly when neither "2101"
nor the fallback "2111" yields a length-4 match against the derived digit
string; in every other case it returns a trimmed suffix of `j_segment`. -/
theorem c5_j_failure_iff (j : List Char) :
    (j_trimming j = NA ↔
      (findLongestMatch (jValueString j) pat2101).2.2 ≠ 4 ∧
      (findLongestMatch (jValueString j) pat2111).2.2 ≠ 4) ∧
    (j_trimming j ≠ NA → ∃ a, j_trimming j = j.drop (a + 1)) := by
  have hb1 := findLongestMatch_bound (jValueString j) pat2101
  have hb2 := findLongestMatch_bound (jValueString j) pat2111
  have hlenv : (jValueString j).length = j.length := List.length_map _ _
  rw [hlenv] at hb1 hb2
  by_cases h1 : (findLongestMatch (jValueString j) pat2101).2.2 = 4
  · have heq : j_trimming j =
        j.drop ((findLongestMatch (jValueString j) pat2101).1 + 1) := by
      unfold j_trimming
      rw [if_pos h1]
    have hne : j_trimming j ≠ NA := by
      rw [heq]
      intro hna
      have hlen := congrArg List.length hna
      rw [List.length_drop] at hlen
      have hNA : NA.length = 2 := rfl
      rw [hNA] at hlen
      omega
    refine ⟨⟨fun hna => absurd hna hne, ?_⟩, fun _ => ⟨_, heq⟩⟩
    rintro ⟨ha, _⟩
    exact absurd h1 ha
  · by_cases h2 : (findLongestMatch (jValueString j) pat2111).2.2 = 4
    · have heq : j_trimming j =
          j.drop ((findLongestMatch (jValueString j) pat2111).1 + 1) := by
        unfold j_trimming
        rw [if_neg h1, if_pos h2]
      have hne : j_trimming j ≠ NA := by
        rw [heq]
        intro hna
        have hlen := congrArg List.length hna
        rw [List.length_drop] at hlen
        have hNA : NA.length = 2 := rfl
        rw [hNA] at hlen
        omega
      refine ⟨⟨fun hna => absurd hna hne, ?_⟩, fun _ => ⟨_, heq⟩⟩
      rintro ⟨_, hb⟩
      exact absurd h2 hb
    · have heq : j_trimming j = NA := by
        unfold j_trimming
        rw [if_neg h1, if_neg h2]
      exact ⟨⟨fun _ => ⟨h1, h2⟩, fun _ => heq⟩, fun h => absurd heq h⟩

theorem c5_witness :
    ∃ a, j_trimming ['F', 'G', 'A', 'G'] =
      List.drop (a + 1) ['F', 'G', 'A', 'G'] :=
  (c5_j_failure_iff _).2 (by decide)

/-- Claim C6, counterexample: on `v_segment` = "ACCA", `cdr3` = "CA" the V
resolver succeeds with `v_trimmed` = "AC", which ends in 'C' while `cdr3`
starts with 'C': a successful `v_trimmed` can end in the anchor residue even
though `cdr3` supplies the junction anchor. -/
theorem c6_counterexample :
    v_trimming alNone ['A', 'C', 'C', 'A'] ['C', 'A'] = ['A', 'C'] ∧
    v_trimming alNone ['A', 'C', 'C', 'A'] ['C', 'A'] ≠ NA ∧
    (['A', 'C'] : List Char).getLast? = some 'C' ∧
    (['C', 'A'] : List Char).head? = some 'C' :=
  ⟨by decide, by decide, by decide, by decide⟩

/-- Claim C6 (amended): on every success the matched substring — which starts
with the anchor residue 'C' — is excised from `v_segment`
(`v_segment = v_trimmed ++ m ++ r`), so the anchor occurrence at the
junction is supplied by the CDR3 and not kept in `v_trimmed`; `v_trimmed`
may however still end in a different 'C' of its own. -/
theorem c6_anchor_excised (al : Aligner) (v c : List Char)
    (h : v_trimming al v c ≠ NA) :
    ∃ m r, v = v_trimming al v c ++ m ++ r ∧ m.head? = some 'C' := by
  rcases v_trimming_shape al v c with hna | ⟨m, hh, hinf, heq⟩
  · exact absurd hna h
  · have hm : m ≠ [] := by
      intro hnil
      rw [hnil] at hh
      simp at hh
    obtain ⟨i, hocc⟩ := findOcc_isSome_of_infix hm hinf
    obtain ⟨r, hr, _⟩ := splitTrim_decomp hm hocc
    exact ⟨m, r, by rw [heq]; exact hr, hh⟩

theorem c6_witness :
    ∃ m r, (['A', 'C', 'C', 'A'] : List Char) =
      v_trimming alNone ['A', 'C', 'C', 'A'] ['C', 'A'] ++ m ++ r ∧
      m.head? = some 'C' :=
  c6_anchor_excised alNone _ _ (by decide)

/-- Claim C7: the alignment tier is entered only when the exact tier has no
candidate (with a candidate, the result never consults the aligner); inside
the tier an alignment is accepted only if its window start character is 'C'
and its score meets the threshold 0; and when no alignment survives the
filter the resolver returns the failure sentinel. -/
theorem c7_alignment_tier_gating (al : Aligner) (v c : List Char) :
    (∀ m0 ms, exactCandidates v c = m0 :: ms →
        v_trimming al v c = splitTrim (maxByLen m0 ms) v) ∧
    (exactCandidates v c = [] →
      (pyFilterAligns (lastN 20 v) 0 (al (lastN 20 v) c) = some [] →
          v_trimming al v c = NA) ∧
      (∀ fs, pyFilterAligns (lastN 20 v) 0 (al (lastN 20 v) c) = some fs →
          ∀ a ∈ fs, a ∈ al (lastN 20 v) c ∧
            (lastN 20 v).get? a.start = some 'C' ∧ (0 : ℚ) ≤ a.score)) := by
  constructor
  · intro m0 ms hc
    unfold v_trimming
    rw [hc]
  · intro hc
    constructor
    · intro hf
      unfold v_trimming
      rw [hc, hf]
    · intro fs hf a ha
      exact pyFilterAligns_sound hf a ha

theorem c7_witness :
    v_trimming alNone ['X', 'Y'] ['Z'] = NA :=
  ((c7_alignment_tier_gating alNone _ _).2 (by decide)).1 (by decide)

/-- Claim C8, counterexample: with the exact tier empty, an aligner whose
only (hence best) alignment starts at window position 0 — a non-'C'
position one residue before a 'C' — makes the resolver return the failure
sentinel: no shifted-start candidate is probed or accepted, contrary to the
claimed false-start correction. -/
theorem c8_counterexample :
    v_trimming alEarly ['X', 'C', 'A', 'B'] ['D', 'D'] = NA ∧
    exactCandidates ['X', 'C', 'A', 'B'] ['D', 'D'] = [] ∧
    alEarly (lastN 20 ['X', 'C', 'A', 'B']) ['D', 'D'] = [⟨0, 5⟩] ∧
    (lastN 20 ['X', 'C', 'A', 'B']).get? 0 = some 'X' ∧
    (lastN 20 ['X', 'C', 'A', 'B']).get? 1 = some 'C' :=
  ⟨by decide, by decide, by decide, by decide, by decide⟩

/-- Claim C8 (amended): the alignment tier performs no start-shift probing:
whenever it succeeds, the accepted overlap comes from an alignment in the
aligner's own output, used with its start unmodified, and that alignment
already starts at a 'C' and meets the score threshold; candidates failing
the starting-residue test are discarded outright. -/
theorem c8_no_shift_probe (al : Aligner) (v c : List Char)
    (hc : exactCandidates v c = []) (hs : v_trimming al v c ≠ NA) :
    ∃ a ∈ al (lastN 20 v) c, (lastN 20 v).get? a.start = some 'C' ∧
      (0 : ℚ) ≤ a.score ∧
      v_trimming al v c = splitTrim ((lastN 20 v).drop a.start) v := by
  cases hf : pyFilterAligns (lastN 20 v) 0 (al (lastN 20 v) c) with
  | none =>
    exfalso
    apply hs
    unfold v_trimming
    rw [hc, hf]
  | some fs =>
    cases fs with
    | nil =>
      exfalso
      apply hs
      unfold v_trimming
      rw [hc, hf]
    | cons f fs2 =>
      obtain ⟨hin, hch, hsc⟩ := pyFilterAligns_sound hf _ (maxByScore_mem fs2 f)
      refine ⟨maxByScore f fs2, hin, hch, hsc, ?_⟩
      unfold v_trimming
      rw [hc, hf]

theorem c8_witness :
    ∃ a ∈ alAnchored (lastN 20 ['X', 'C', 'A', 'B']) ['D', 'D'],
      (lastN 20 ['X', 'C', 'A', 'B']).get? a.start = some 'C' ∧
      (0 : ℚ) ≤ a.score ∧
      v_trimming alAnchored ['X', 'C', 'A', 'B'] ['D', 'D'] =
        splitTrim ((lastN 20 ['X', 'C', 'A', 'B']).drop a.start)
          ['X', 'C', 'A', 'B'] :=
  c8_no_shift_probe alAnchored _ _ (by decide) (by decide)

/-- Claim C9: every input record lands in exactly one of the two outputs (a
resolver failure is recorded, never an error aborting the batch); any record
with a failed trim is diverted, with its recorded trim columns, to the
quarantine output; and an empty or sentinel "NA" V or J sequence makes the
corresponding resolver fail outright, for every aligner. -/
theorem c9_no_record_lost (al : Aligner) (rows : List JRecord) :
    (∀ r ∈ rows,
        (∃ ar ∈ (full_region_gen al rows).1, ar.base = r) ∨
        (∃ q ∈ (full_region_gen al rows).2, q.1 = r)) ∧
    (∀ r ∈ rows, (v_trimming al r.v_seq r.cdr3 = NA ∨ j_trimming r.j_seq = NA) →
        (r, v_trimming al r.v_seq r.cdr3, j_trimming r.j_seq) ∈
          (full_region_gen al rows).2) ∧
    (∀ c, v_trimming al [] c = NA ∧ v_trimming al NA c = NA) ∧
    (j_trimming [] = NA ∧ j_trimming NA = NA) := by
  refine ⟨?_, ?_, ?_, by decide, by decide⟩
  · intro r hr
    unfold full_region_gen
    simp only [List.mem_filterMap, List.mem_map]
    by_cases hok : v_trimming al r.v_seq r.cdr3 ≠ NA ∧ j_trimming r.j_seq ≠ NA
    · left
      refine ⟨⟨r, v_trimming al r.v_seq r.cdr3, j_trimming r.j_seq,
        v_trimming al r.v_seq r.cdr3 ++ r.cdr3 ++ j_trimming r.j_seq⟩,
        ⟨(r, v_trimming al r.v_seq r.cdr3, j_trimming r.j_seq), ⟨r, hr, rfl⟩, ?_⟩, rfl⟩
      rw [if_pos hok]
    · right
      have hor : v_trimming al r.v_seq r.cdr3 = NA ∨ j_trimming r.j_seq = NA := by
        rcases Decidable.not_and_iff_or_not.mp hok with h | h
        · exact Or.inl (Decidable.not_not.mp h)
        · exact Or.inr (Decidable.not_not.mp h)
      refine ⟨(r, v_trimming al r.v_seq r.cdr3, j_trimming r.j_seq),
        ⟨(r, v_trimming al r.v_seq r.cdr3, j_trimming r.j_seq), ⟨r, hr, rfl⟩, ?_⟩, rfl⟩
      rw [if_pos hor]
  · intro r hr hor
    unfold full_region_gen
    simp only [List.mem_filterMap, List.mem_map]
    refine ⟨(r, v_trimming al r.v_seq r.cdr3, j_trimming r.j_seq), ⟨r, hr, rfl⟩, ?_⟩
    rw [if_pos hor]
  · intro c
    constructor
    · exact v_trimming_no_anchor (by decide) al c
    · exact v_trimming_no_anchor (by decide) al c

theorem c9_witness :
    ((⟨NA, ['C', 'A', 'S'], NA⟩ : JRecord),
        v_trimming alNone NA ['C', 'A', 'S'], j_trimming NA) ∈
      (full_region_gen alNone [⟨NA, ['C', 'A', 'S'], NA⟩]).2 :=
  (c9_no_record_lost alNone [⟨NA, ['C', 'A', 'S'], NA⟩]).2.1
    ⟨NA, ['C', 'A', 'S'], NA⟩ (by simp) (by decide)

/-- Claim C10: on success, `v_trimmed` is a prefix of the input `v_segment`
and `j_trimmed` is a suffix of the input `j_segment`: trimming only removes
characters from the end of V and from the start of J and never alters or
reorders the retained characters. -/
theorem c10_prefix_suffix (al : Aligner) (v c j : List Char) :
    (v_trimming al v c ≠ NA → v_trimming al v c <+: v) ∧
    (j_trimming j ≠ NA → j_trimming j <:+ j) := by
  constructor
  · intro h
    rcases v_trimming_shape al v c with hna | ⟨m, hh, _, heq⟩
    · exact absurd hna h
    · rw [heq]
      apply splitTrim_pre
      intro hm
      rw [hm] at hh
      simp at hh
  · intro h
    by_cases h1 : (findLongestMatch (jValueString j) pat2101).2.2 = 4
    · have heq : j_trimming j =
          j.drop ((findLongestMatch (jValueString j) pat2101).1 + 1) := by
        unfold j_trimming
        rw [if_pos h1]
      rw [heq]
      exact List.drop_suffix _ _
    · by_cases h2 : (findLongestMatch (jValueString j) pat2111).2.2 = 4
      · have heq : j_trimming j =
            j.drop ((findLongestMatch (jValueString j) pat2111).1 + 1) := by
          unfold j_trimming
          rw [if_neg h1, if_pos h2]
        rw [heq]
        exact List.drop_suffix _ _
      · exfalso
        apply h
        unfold j_trimming
        rw [if_neg h1, if_neg h2]

theorem c10_witness :
    v_trimming alNone ['M', 'C', 'A'] ['C', 'A', 'S'] <+: ['M', 'C', 'A'] ∧
    j_trimming ['F', 'G', 'A', 'G'] <:+ ['F', 'G', 'A', 'G'] :=
  ⟨(c10_prefix_suffix alNone ['M', 'C', 'A'] ['C', 'A', 'S'] ['F', 'G', 'A', 'G']).1
      (by decide),
   (c10_prefix_suffix alNone ['M', 'C', 'A'] ['C', 'A', 'S'] ['F', 'G', 'A', 'G']).2
      (by decide)⟩

end VDJ
